import Mathlib

/-!
Shallow embedding of mlpack's augmented-task generators:
`src/mlpack/methods/ann/augmented/tasks/add_impl.hpp` (AddTask) and
`src/mlpack/methods/ann/augmented/tasks/copy_impl.hpp` (CopyTask).

Modelling conventions:
* An `arma::colvec` of small nonnegative integer values is a `List Nat`.
* An `arma::field` batch is a `List` of items.
* Random draws are passed in explicitly: `arma::randi(n, distr_param(0,1))`
  becomes the first `n` values of a stream `r : Nat → Nat` whose values are
  assumed `≤ 1`; `RandInt(lo, hi)` becomes a drawn value assumed in `[lo, hi)`.
* Fallible steps (thrown exceptions, out-of-bounds `arma` subview accesses,
  which abort in debug builds) are modelled with `Option`: `none` means the
  C++ call does not return normally.
* `arma` matrices are stored column-major, and `reshape` keeps the flat
  element order, truncating or zero-padding at the end; a matrix that the
  code immediately flattens to one column is modelled directly as the flat
  column (a `List Nat` in element order).
-/

set_option autoImplicit false

namespace MlpackTasks

/-- The loop `while (tot > 0) { binarySeq.push_back(tot & 1); tot >>= 1; }`
of `AddTask::Generate`, with an explicit structural fuel (kept `≥` the
remaining value, so it never runs out; see `toBitsGo_fuel_irrel`). -/
def toBitsGo : Nat → Nat → List Nat
  | _, 0 => []
  | n, fuel + 1 => if n = 0 then [] else (n % 2) :: toBitsGo (n / 2) fuel

/-- Little-endian binary digits of `n`, as produced by the `while (tot > 0)`
loop in `AddTask::Generate`.  `toBitsLSB 0 = []` (the loop body never
runs); `n` itself is enough fuel since `n` has at most `n` binary digits. -/
def toBitsLSB (n : Nat) : List Nat :=
  toBitsGo n n

/-- Big-endian (most-significant digit first) value of a binary digit list,
as computed by the loops `valA <<= 1; valA += vecInput(i).at(k);` in
`AddTask::Generate`. -/
def msbValue (l : List Nat) : Nat :=
  l.foldl (fun a b => 2 * a + b) 0

/-- One column of the `arma::zeros(3, n)` matrix built by `AddTask::Binarize`
after the write `output.at(i).at(val, j) = 1`.  The write is in bounds only
for `val ≤ 2`; every theorem below restricts to that range (for `val ≥ 3`
the C++ write is out of bounds). -/
def oneHot3 (v : Nat) : List Nat :=
  [if v = 0 then 1 else 0, if v = 1 then 1 else 0, if v = 2 then 1 else 0]

/-- `AddTask::Binarize` on a single sequence: the `3 × n` one-hot matrix,
flattened column-major to a single column by
`output.at(i).reshape(output.at(i).n_elem, 1)`. -/
def binarizeSeq (s : List Nat) : List Nat :=
  (s.map oneHot3).flatten

/-- `AddTask::Binarize` on a whole batch (field of sequences). -/
def Binarize (batch : List (List Nat)) : List (List Nat) :=
  batch.map binarizeSeq

/-- `arma` `reshape(n, 1)` applied to a single flattened column of length
`l.length`: the flat element order is kept, truncated or zero-padded at the
end to length `n`. -/
def armaReshapeCol (l : List Nat) (n : Nat) : List Nat :=
  (l.take n) ++ List.replicate (n - l.length) 0

/-- Decoding a flattened one-hot sequence (alphabet size 3) back to a symbol
sequence: each group of three entries contributes the symbol whose slot
holds a `1`; an all-zero group encodes no symbol.  This is the inverse of
`binarizeSeq` used to state the spec's round-trip claims. -/
def decodeOneHot3 : List Nat → List Nat
  | a :: b :: c :: rest =>
      (if a = 1 then [0] else if b = 1 then [1] else if c = 1 then [2] else [])
        ++ decodeOneHot3 rest
  | _ => []

/-- Split a decoded Add input sequence at the separator symbol `2`:
operand A is the digits before the first separator, operand B the digits
after it. -/
def operandsOf (s : List Nat) : List Nat × List Nat :=
  (s.takeWhile (fun x => x ≠ 2), (s.dropWhile (fun x => x ≠ 2)).drop 1)

/-- Modelled from the spec (the uniform random-integer source `RandInt` is a
collaborator outside the two source files): `RandInt(lo, hiExclusive)` can
return `v` exactly when `lo ≤ v < hiExclusive`; on an empty range no return
value is admissible (the draw is undefined). -/
def randIntCanReturn (lo hiExcl v : Nat) : Prop :=
  lo ≤ v ∧ v < hiExcl

instance (lo hiExcl v : Nat) : Decidable (randIntCanReturn lo hiExcl v) :=
  inferInstanceAs (Decidable (_ ∧ _))

namespace AddTask

/-- `AddTask::AddTask(bitLen)`: throws `std::invalid_argument` when
`bitLen <= 0` (for the unsigned `size_t` parameter: when `bitLen = 0`),
otherwise stores `bitLen`. -/
def mk (bitLen : Nat) : Option Nat :=
  if bitLen ≤ 0 then none else some bitLen

/-- The per-item input sequence of `AddTask::Generate`:
`arma::randi(sizeA + sizeB + 1, distr_param(0,1))` (the first
`sizeA + sizeB + 1` values of the bit stream `r`) with the separator written
over position `sizeA` by `vecInput(i).at(sizeA) = 2`. -/
def vecInput (sizeA sizeB : Nat) (r : Nat → Nat) : List Nat :=
  (List.ofFn (fun i : Fin (sizeA + sizeB + 1) => r i)).set sizeA 2

/-- Operand A as decoded by `AddTask::Generate`:
`for (k = 0; k < sizeA; ++k) { valA <<= 1; valA += vecInput(i).at(k); }`. -/
def valA (sizeA sizeB : Nat) (r : Nat → Nat) : Nat :=
  msbValue ((vecInput sizeA sizeB r).take sizeA)

/-- Operand B as decoded by `AddTask::Generate`:
`for (k = sizeA + 1; k < sizeA + 1 + sizeB; ++k) { ... }`. -/
def valB (sizeA sizeB : Nat) (r : Nat → Nat) : Nat :=
  msbValue ((vecInput sizeA sizeB r).drop (sizeA + 1))

/-- The first `sizeA` values of the bit stream: the digits of operand A as
drawn by `arma::randi` (positions `0 .. sizeA-1` of the input sequence). -/
def bitsA (sizeA : Nat) (r : Nat → Nat) : List Nat :=
  List.ofFn (fun i : Fin sizeA => r i)

/-- The drawn digits of operand B (positions `sizeA+1 .. sizeA+sizeB` of the
input sequence). -/
def bitsB (sizeA sizeB : Nat) (r : Nat → Nat) : List Nat :=
  List.ofFn (fun j : Fin sizeB => r (sizeA + 1 + j))

/-- The pre-encoding label sequence produced by `AddTask::Generate` (derived
characterization, proved equal to the `generateItem` output below): the
little-endian digits of the sum — `[0]` when the sum is zero — reversed to
most-significant-first order. -/
def labelDigits (sizeA sizeB : Nat) (r : Nat → Nat) : List Nat :=
  (if valA sizeA sizeB r + valB sizeA sizeB r = 0 then [0]
   else toBitsLSB (valA sizeA sizeB r + valB sizeA sizeB r)).reverse

/-- Body of the per-item loop of the field-form `AddTask::Generate`, before
one-hot encoding: builds `vecInput`, decodes the operands, encodes the sum
`tot` little-endian, throws `std::domain_error` when the digit list is empty
while the sum is nonzero, pushes the digit `0` when the digit list is empty,
and writes the digits reversed (most-significant first) into the label. -/
def generateItem (sizeA sizeB : Nat) (r : Nat → Nat) : Option (List Nat × List Nat) :=
  let inp := vecInput sizeA sizeB r
  let tot := valA sizeA sizeB r + valB sizeA sizeB r
  let binarySeq := toBitsLSB tot
  if binarySeq = [] ∧ tot ≠ 0 then none
  else
    let digits := if binarySeq = [] then [0] else binarySeq
    some (inp, digits.reverse)

/-- One item of the field-form `AddTask::Generate` after the trailing
encoding steps: both sequences pass through `Binarize`, then
`labels.at(i).reshape(input.at(i).n_elem, 1)` reshapes the label column to
the element count of the corresponding encoded input column. -/
def generateItemEnc (sizeA sizeB : Nat) (r : Nat → Nat) : Option (List Nat × List Nat) :=
  match generateItem sizeA sizeB r with
  | none => none
  | some (inp, lab) =>
    let encInp := binarizeSeq inp
    let encLab := binarizeSeq lab
    some (encInp, armaReshapeCol encLab encInp.length)

/-- One random draw for one batch item: the two `RandInt` size draws (used
only when `fixedLength` is false) and the bit stream feeding `arma::randi`. -/
structure Draw where
  sizeA : Nat
  sizeB : Nat
  bits : Nat → Nat

/-- The operand size actually used by `AddTask::Generate` for one item:
`sizeA = bitLen` stays when `fixedLength`, otherwise the freshly drawn
`RandInt(2, bitLen + 1)` value is used. -/
def effSize (bitLen : Nat) (fixedLength : Bool) (drawn : Nat) : Nat :=
  if fixedLength then bitLen else drawn

/-- Validity of one item's random draws: the size draws are admissible
`RandInt(2, bitLen + 1)` results (only constrained when they are used, i.e.
when `fixedLength` is false) and the bit stream takes values in `{0, 1}`. -/
def drawOk (bitLen : Nat) (fixedLength : Bool) (d : Draw) : Prop :=
  (fixedLength = false →
    randIntCanReturn 2 (bitLen + 1) d.sizeA ∧ randIntCanReturn 2 (bitLen + 1) d.sizeB) ∧
  (∀ i, d.bits i ≤ 1)

/-- One full item of the field-form `AddTask::Generate` with the size
selection applied. -/
def generateBatchItem (bitLen : Nat) (fixedLength : Bool) (d : Draw) :
    Option (List Nat × List Nat) :=
  generateItemEnc (effSize bitLen fixedLength d.sizeA) (effSize bitLen fixedLength d.sizeB)
    d.bits

/-- The per-item loop of the field-form `AddTask::Generate`, collecting the
encoded inputs and labels of all batch items (one draw per item). -/
def generateFieldAux (bitLen : Nat) (fixedLength : Bool) :
    List Draw → Option (List (List Nat) × List (List Nat))
  | [] => some ([], [])
  | d :: rest =>
    match generateBatchItem bitLen fixedLength d, generateFieldAux bitLen fixedLength rest with
    | some (ei, el), some (ri, rl) => some (ei :: ri, el :: rl)
    | _, _ => none

/-- Field-form `AddTask::Generate(input, labels, batchSize, fixedLength)`:
the per-item loop followed by the alignment check
`if (input.n_rows != labels.n_rows) throw std::logic_error(...)`. -/
def generateField (bitLen : Nat) (fixedLength : Bool) (draws : List Draw) :
    Option (List (List Nat) × List (List Nat)) :=
  match generateFieldAux bitLen fixedLength draws with
  | none => none
  | some (inp, lab) => if inp.length ≠ lab.length then none else some (inp, lab)

/-- Fixed-length `AddTask::Generate(input, labels, batchSize)`: calls the
field form with `fixedLength = true`, then sizes the dense output matrices
from item 0 (`fieldInput(0).n_rows`, out of bounds for an empty batch) and
copies each item into one column (`input.col(i) = fieldInput.at(i)`, which
requires every item to have the matrix's row count).  The dense matrices
are represented as their lists of columns. -/
def generateMatrix (bitLen : Nat) (draws : List Draw) :
    Option (List (List Nat) × List (List Nat)) :=
  match generateField bitLen true draws with
  | none => none
  | some (fi, fl) =>
    match fi.head?, fl.head? with
    | some i0, some l0 =>
      if fi.all (fun c => c.length = i0.length) && fl.all (fun c => c.length = l0.length)
      then some (fi, fl) else none
    | _, _ => none

end AddTask

namespace CopyTask

/-- `CopyTask::CopyTask(maxLength, nRepeats)`: `assert(maxLength > 1)` is
the only validation (`nRepeats` is stored unchecked). -/
def mk (maxLength nRepeats : Nat) : Option (Nat × Nat) :=
  if maxLength > 1 then some (maxLength, nRepeats) else none

/-- Body of the per-item loop of `CopyTask::Generate` for a drawn length
`size` and bit stream `r`: `vecInput = randi(size)`, `vecLabel` is
`repmat(vecInput, nRepeats, 1)` (that is, `nRepeats` stacked copies),
`totSize = vecInput.n_elem + vecLabel.n_elem`.  The input is a
`totSize × 2` matrix — column 0 carries `vecInput` in its first `size`
rows, column 1 carries ones in rows `size .. totSize-1` — transposed and
flattened to one column (so time step `t` occupies flat positions `2*t`
and `2*t + 1`); the label is a `totSize`-row column with `vecLabel` in rows
`size .. totSize-1`.  The two `rows(size, totSize-1)` subviews (and
`rows(0, size-1)` for `size = 0`) are out of bounds unless
`1 ≤ size ∧ size + 1 ≤ totSize`; out of bounds is `none`. -/
def generateItem (nRepeats size : Nat) (r : Nat → Nat) : Option (List Nat × List Nat) :=
  let vecInput := List.ofFn (fun i : Fin size => r i)
  let vecLabel := (List.replicate nRepeats vecInput).flatten
  let totSize := vecInput.length + vecLabel.length
  if 1 ≤ size ∧ size + 1 ≤ totSize then
    let col0 := vecInput ++ List.replicate (totSize - size) 0
    let col1 := List.replicate size 0 ++ List.replicate (totSize - size) 1
    some ((List.zipWith (fun a b => [a, b]) col0 col1).flatten,
          List.replicate size 0 ++ vecLabel)
  else none

end CopyTask

/-! ### Supporting lemmas: binary digit lists -/

theorem toBitsGo_fuel_irrel (f1 : Nat) :
    ∀ n f2, n ≤ f1 → n ≤ f2 → toBitsGo n f1 = toBitsGo n f2 := by
  induction f1 with
  | zero =>
    intro n f2 h1 _
    have hn : n = 0 := by omega
    subst hn
    cases f2 with
    | zero => rfl
    | succ k => simp [toBitsGo]
  | succ k ih =>
    intro n f2 h1 h2
    by_cases hn : n = 0
    · subst hn
      cases f2 with
      | zero => simp [toBitsGo]
      | succ j => simp [toBitsGo]
    · have hf2 : f2 ≠ 0 := by omega
      rcases Nat.exists_eq_succ_of_ne_zero hf2 with ⟨j, hj⟩
      subst hj
      have hdiv : n / 2 < n := Nat.div_lt_self (Nat.pos_of_ne_zero hn) (by decide)
      rw [toBitsGo, toBitsGo, if_neg hn, if_neg hn,
        ih (n / 2) j (by omega) (by omega)]

theorem toBitsLSB_zero : toBitsLSB 0 = [] := rfl

theorem toBitsLSB_of_ne_zero {n : Nat} (h : n ≠ 0) :
    toBitsLSB n = (n % 2) :: toBitsLSB (n / 2) := by
  rcases Nat.exists_eq_succ_of_ne_zero h with ⟨m, hm⟩
  have hdiv : n / 2 < n := Nat.div_lt_self (Nat.pos_of_ne_zero h) (by decide)
  rw [toBitsLSB, toBitsLSB]
  conv =>
    lhs
    rw [hm, toBitsGo]
  rw [← hm, if_neg h]
  congr 1
  exact toBitsGo_fuel_irrel m (n / 2) (n / 2) (by omega) (le_refl _)

theorem toBitsLSB_eq_nil_iff (n : Nat) : toBitsLSB n = [] ↔ n = 0 := by
  constructor
  · intro h
    by_contra hn
    rw [toBitsLSB_of_ne_zero hn] at h
    exact List.cons_ne_nil _ _ h
  · intro h
    subst h
    exact toBitsLSB_zero

theorem toBitsLSB_foldr (n : Nat) :
    (toBitsLSB n).foldr (fun x y => 2 * y + x) 0 = n := by
  induction n using Nat.strong_induction_on with
  | _ n ih =>
    by_cases h : n = 0
    · subst h
      simp [toBitsLSB_zero]
    · rw [toBitsLSB_of_ne_zero h, List.foldr_cons,
        ih (n / 2) (Nat.div_lt_self (Nat.pos_of_ne_zero h) (by decide))]
      omega

theorem msbValue_reverse (l : List Nat) :
    msbValue l.reverse = l.foldr (fun x y => 2 * y + x) 0 := by
  rw [msbValue, List.foldl_reverse]

theorem msbValue_reverse_toBitsLSB (n : Nat) :
    msbValue (toBitsLSB n).reverse = n := by
  rw [msbValue_reverse, toBitsLSB_foldr]

theorem toBitsLSB_mem_le_one {n x : Nat} (h : x ∈ toBitsLSB n) : x ≤ 1 := by
  induction n using Nat.strong_induction_on with
  | _ n ih =>
    by_cases hn : n = 0
    · subst hn
      rw [toBitsLSB_zero] at h
      cases h
    · rw [toBitsLSB_of_ne_zero hn] at h
      rcases List.mem_cons.mp h with h1 | h2
      · omega
      · exact ih (n / 2) (Nat.div_lt_self (Nat.pos_of_ne_zero hn) (by decide)) h2

theorem toBitsLSB_getLast {n : Nat} (h : n ≠ 0) :
    (toBitsLSB n).getLast? = some 1 := by
  induction n using Nat.strong_induction_on with
  | _ n ih =>
    rw [toBitsLSB_of_ne_zero h]
    by_cases h2 : n / 2 = 0
    · have hn1 : n = 1 := by omega
      subst hn1
      simp [toBitsLSB_zero]
    · have := ih (n / 2) (Nat.div_lt_self (Nat.pos_of_ne_zero h) (by decide)) h2
      rw [List.getLast?_cons, this]
      rfl

theorem toBitsLSB_length_le {n k : Nat} (h : n < 2 ^ k) :
    (toBitsLSB n).length ≤ k := by
  induction n using Nat.strong_induction_on generalizing k with
  | _ n ih =>
    by_cases hn : n = 0
    · subst hn
      simp [toBitsLSB_zero]
    · rw [toBitsLSB_of_ne_zero hn, List.length_cons]
      have hk : k ≠ 0 := by
        intro hk0
        subst hk0
        simp at h
        omega
      have hdiv : n / 2 < 2 ^ (k - 1) := by
        have h2 : 2 ^ k = 2 ^ (k - 1) * 2 := by
          rw [← Nat.pow_succ]
          congr 1
          omega
        omega
      have := ih (n / 2) (Nat.div_lt_self (Nat.pos_of_ne_zero hn) (by decide)) hdiv
      omega

theorem msbValue_nil : msbValue [] = 0 := rfl

theorem msbValue_lt_aux (l : List Nat) (hl : ∀ x ∈ l, x ≤ 1) :
    ∀ a : Nat, l.foldl (fun u v => 2 * u + v) a < (a + 1) * 2 ^ l.length := by
  induction l with
  | nil =>
    intro a
    simp
  | cons b t ih =>
    intro a
    have hb : b ≤ 1 := hl b (List.mem_cons_self b t)
    have ht : ∀ x ∈ t, x ≤ 1 := fun x hx => hl x (List.mem_cons_of_mem b hx)
    have := ih ht (2 * a + b)
    rw [List.foldl_cons, List.length_cons]
    calc t.foldl (fun u v => 2 * u + v) (2 * a + b) < (2 * a + b + 1) * 2 ^ t.length := this
    _ ≤ (a + 1) * 2 ^ (t.length + 1) := by
        rw [Nat.pow_succ]
        nlinarith [Nat.pos_pow_of_pos t.length (show 0 < 2 by decide)]

theorem msbValue_lt (l : List Nat) (hl : ∀ x ∈ l, x ≤ 1) :
    msbValue l < 2 ^ l.length := by
  have := msbValue_lt_aux l hl 0
  simpa [msbValue] using this

/-! ### Supporting lemmas: one-hot encoding and decoding -/

theorem binarizeSeq_nil : binarizeSeq [] = [] := rfl

theorem binarizeSeq_cons (v : Nat) (s : List Nat) :
    binarizeSeq (v :: s) = oneHot3 v ++ binarizeSeq s := by
  simp [binarizeSeq]

theorem binarizeSeq_length (s : List Nat) :
    (binarizeSeq s).length = 3 * s.length := by
  induction s with
  | nil => rfl
  | cons v t ih =>
    rw [binarizeSeq_cons, List.length_append, ih, List.length_cons]
    simp [oneHot3]
    omega

theorem decodeOneHot3_binarize_append (s z : List Nat) (hs : ∀ v ∈ s, v ≤ 2) :
    decodeOneHot3 (binarizeSeq s ++ z) = s ++ decodeOneHot3 z := by
  induction s with
  | nil => simp [binarizeSeq_nil]
  | cons v t ih =>
    have hv : v ≤ 2 := hs v (List.mem_cons_self v t)
    have ht : ∀ x ∈ t, x ≤ 2 := fun x hx => hs x (List.mem_cons_of_mem v hx)
    rw [binarizeSeq_cons]
    interval_cases v <;>
      simp [oneHot3, decodeOneHot3, ih ht]

theorem decodeOneHot3_binarize (s : List Nat) (hs : ∀ v ∈ s, v ≤ 2) :
    decodeOneHot3 (binarizeSeq s) = s := by
  have := decodeOneHot3_binarize_append s [] hs
  simpa [decodeOneHot3] using this

theorem decodeOneHot3_replicate_zero (k : Nat) :
    decodeOneHot3 (List.replicate k 0) = [] := by
  induction k using Nat.strong_induction_on with
  | _ k ih =>
    match k with
    | 0 => rfl
    | 1 => rfl
    | 2 => rfl
    | m + 3 =>
      have h3 : List.replicate (m + 3) (0 : Nat) = 0 :: 0 :: 0 :: List.replicate m 0 := by
        simp [List.replicate_succ]
      rw [h3]
      simp only [decodeOneHot3]
      simpa using ih m (by omega)

/-! ### Supporting lemmas: the Add input sequence -/

namespace AddTask

theorem vecInput_length (sizeA sizeB : Nat) (r : Nat → Nat) :
    (vecInput sizeA sizeB r).length = sizeA + sizeB + 1 := by
  rw [vecInput, List.length_set, List.length_ofFn]

theorem bitsA_length (sizeA : Nat) (r : Nat → Nat) : (bitsA sizeA r).length = sizeA :=
  List.length_ofFn _

theorem bitsB_length (sizeA sizeB : Nat) (r : Nat → Nat) :
    (bitsB sizeA sizeB r).length = sizeB :=
  List.length_ofFn _

theorem vecInput_eq (sizeA sizeB : Nat) (r : Nat → Nat) :
    vecInput sizeA sizeB r = bitsA sizeA r ++ 2 :: bitsB sizeA sizeB r := by
  have hA := bitsA_length sizeA r
  apply List.ext_getElem?
  intro i
  have hL : (vecInput sizeA sizeB r)[i]? =
      if i = sizeA then some 2 else if i < sizeA + sizeB + 1 then some (r i) else none := by
    rw [vecInput]
    by_cases hi : i = sizeA
    · subst hi
      rw [List.getElem?_set_self (show i < _ by rw [List.length_ofFn]; omega)]
      simp
    · rw [List.getElem?_set_ne (fun h => hi h.symm), List.getElem?_ofFn]
      by_cases hin : i < sizeA + sizeB + 1
      · simp [List.ofFnNthVal, hin, hi]
      · simp [List.ofFnNthVal, hin, hi]
  have hR : (bitsA sizeA r ++ 2 :: bitsB sizeA sizeB r)[i]? =
      if i = sizeA then some 2 else if i < sizeA + sizeB + 1 then some (r i) else none := by
    rcases Nat.lt_trichotomy i sizeA with hlt | heq | hgt
    · rw [List.getElem?_append_left (show i < (bitsA sizeA r).length by omega)]
      have hne : i ≠ sizeA := by omega
      have hin : i < sizeA + sizeB + 1 := by omega
      rw [bitsA, List.getElem?_ofFn]
      simp [List.ofFnNthVal, hlt, hne, hin]
    · subst heq
      rw [List.getElem?_append_right (show (bitsA i r).length ≤ i by omega)]
      simp [hA]
    · rw [List.getElem?_append_right (show (bitsA sizeA r).length ≤ i by omega)]
      have hsub : i - (bitsA sizeA r).length = (i - sizeA - 1) + 1 := by omega
      rw [hsub, List.getElem?_cons_succ, bitsB, List.getElem?_ofFn]
      have hne : i ≠ sizeA := by omega
      by_cases hin : i < sizeA + sizeB + 1
      · have hin2 : i - sizeA - 1 < sizeB := by omega
        have harg : sizeA + 1 + (i - sizeA - 1) = i := by omega
        simp only [List.ofFnNthVal, dif_pos hin2, hne, if_false, hin, if_true]
        rw [harg]
      · have hin2 : ¬ (i - sizeA - 1 < sizeB) := by omega
        simp [List.ofFnNthVal, hin, hin2, hne]
  rw [hL, hR]

theorem valA_eq (sizeA sizeB : Nat) (r : Nat → Nat) :
    valA sizeA sizeB r = msbValue (bitsA sizeA r) := by
  rw [valA, vecInput_eq, List.take_left' (bitsA_length sizeA r)]

theorem valB_eq (sizeA sizeB : Nat) (r : Nat → Nat) :
    valB sizeA sizeB r = msbValue (bitsB sizeA sizeB r) := by
  rw [valB, vecInput_eq]
  have hassoc : bitsA sizeA r ++ 2 :: bitsB sizeA sizeB r
      = (bitsA sizeA r ++ [2]) ++ bitsB sizeA sizeB r := by
    simp
  rw [hassoc, List.drop_left' (by simp [bitsA_length])]

theorem bitsA_mem_le_one {sizeA : Nat} {r : Nat → Nat} (hr : ∀ i, r i ≤ 1) :
    ∀ x ∈ bitsA sizeA r, x ≤ 1 := by
  rw [bitsA]
  intro x hx
  rcases (List.mem_ofFn _ _).mp hx with ⟨i, hi⟩
  rw [← hi]
  exact hr i

theorem bitsB_mem_le_one {sizeA sizeB : Nat} {r : Nat → Nat} (hr : ∀ i, r i ≤ 1) :
    ∀ x ∈ bitsB sizeA sizeB r, x ≤ 1 := by
  rw [bitsB]
  intro x hx
  rcases (List.mem_ofFn _ _).mp hx with ⟨i, hi⟩
  rw [← hi]
  exact hr _

theorem vecInput_mem_le_two {sizeA sizeB : Nat} {r : Nat → Nat} (hr : ∀ i, r i ≤ 1) :
    ∀ x ∈ vecInput sizeA sizeB r, x ≤ 2 := by
  rw [vecInput_eq]
  intro x hx
  rcases List.mem_append.mp hx with hx1 | hx2
  · exact Nat.le_trans (bitsA_mem_le_one hr x hx1) (by decide)
  · rcases List.mem_cons.mp hx2 with hx3 | hx4
    · omega
    · exact Nat.le_trans (bitsB_mem_le_one hr x hx4) (by decide)

end AddTask

/-! ### Supporting lemmas: the Add label and operand split -/

theorem takeWhile_append_cons {α : Type} {p : α → Bool} {A B : List α} {m : α}
    (hA : ∀ x ∈ A, p x = true) (hm : p m = false) :
    (A ++ m :: B).takeWhile p = A ∧ (A ++ m :: B).dropWhile p = m :: B := by
  induction A with
  | nil =>
    constructor
    · simp [List.takeWhile_cons, hm]
    · simp [List.dropWhile_cons, hm]
  | cons a t ih =>
    have ha : p a = true := hA a (List.mem_cons_self a t)
    have ht : ∀ x ∈ t, p x = true := fun x hx => hA x (List.mem_cons_of_mem a hx)
    rcases ih ht with ⟨ih1, ih2⟩
    constructor
    · simp only [List.cons_append, List.takeWhile_cons, ha, if_true]
      rw [ih1]
    · simp only [List.cons_append, List.dropWhile_cons, ha, if_true]
      rw [ih2]

namespace AddTask

theorem operandsOf_vecInput (sizeA sizeB : Nat) (r : Nat → Nat) (hr : ∀ i, r i ≤ 1) :
    operandsOf (vecInput sizeA sizeB r) = (bitsA sizeA r, bitsB sizeA sizeB r) := by
  rw [operandsOf, vecInput_eq]
  have hA : ∀ x ∈ bitsA sizeA r, (decide (x ≠ 2)) = true := by
    intro x hx
    have := bitsA_mem_le_one hr x hx
    simp
    omega
  have hm : (decide ((2 : Nat) ≠ 2)) = false := by simp
  rcases takeWhile_append_cons hA hm with ⟨h1, h2⟩
  rw [h1, h2]
  simp

theorem generateItem_eq (sizeA sizeB : Nat) (r : Nat → Nat) :
    generateItem sizeA sizeB r =
      some (vecInput sizeA sizeB r, labelDigits sizeA sizeB r) := by
  by_cases h0 : valA sizeA sizeB r + valB sizeA sizeB r = 0
  · simp [generateItem, labelDigits, h0, toBitsLSB_zero]
  · have hne : toBitsLSB (valA sizeA sizeB r + valB sizeA sizeB r) ≠ [] := by
      rw [Ne, toBitsLSB_eq_nil_iff]
      exact h0
    simp [generateItem, labelDigits, h0, hne]

theorem msbValue_labelDigits (sizeA sizeB : Nat) (r : Nat → Nat) :
    msbValue (labelDigits sizeA sizeB r) = valA sizeA sizeB r + valB sizeA sizeB r := by
  rw [labelDigits]
  by_cases h0 : valA sizeA sizeB r + valB sizeA sizeB r = 0
  · rw [if_pos h0, h0]
    rfl
  · rw [if_neg h0, msbValue_reverse_toBitsLSB]

theorem labelDigits_mem_le_one (sizeA sizeB : Nat) (r : Nat → Nat) :
    ∀ x ∈ labelDigits sizeA sizeB r, x ≤ 1 := by
  intro x hx
  rw [labelDigits, List.mem_reverse] at hx
  by_cases h0 : valA sizeA sizeB r + valB sizeA sizeB r = 0
  · rw [if_pos h0] at hx
    rcases List.mem_singleton.mp hx with h
    omega
  · rw [if_neg h0] at hx
    exact toBitsLSB_mem_le_one hx

theorem labelDigits_ne_nil (sizeA sizeB : Nat) (r : Nat → Nat) :
    labelDigits sizeA sizeB r ≠ [] := by
  rw [labelDigits]
  by_cases h0 : valA sizeA sizeB r + valB sizeA sizeB r = 0
  · rw [if_pos h0]
    simp
  · rw [if_neg h0]
    simp only [ne_eq, List.reverse_eq_nil_iff, toBitsLSB_eq_nil_iff]
    exact h0

theorem labelDigits_head_of_ne_zero (sizeA sizeB : Nat) (r : Nat → Nat)
    (h0 : valA sizeA sizeB r + valB sizeA sizeB r ≠ 0) :
    (labelDigits sizeA sizeB r).head? = some 1 := by
  rw [labelDigits, if_neg h0, List.head?_reverse]
  exact toBitsLSB_getLast h0

theorem valA_lt (sizeA sizeB : Nat) (r : Nat → Nat) (hr : ∀ i, r i ≤ 1) :
    valA sizeA sizeB r < 2 ^ sizeA := by
  rw [valA_eq]
  have := msbValue_lt (bitsA sizeA r) (bitsA_mem_le_one hr)
  rwa [bitsA_length] at this

theorem valB_lt (sizeA sizeB : Nat) (r : Nat → Nat) (hr : ∀ i, r i ≤ 1) :
    valB sizeA sizeB r < 2 ^ sizeB := by
  rw [valB_eq]
  have := msbValue_lt (bitsB sizeA sizeB r) (bitsB_mem_le_one hr)
  rwa [bitsB_length] at this

theorem labelDigits_length_le (sizeA sizeB : Nat) (r : Nat → Nat) (hr : ∀ i, r i ≤ 1) :
    (labelDigits sizeA sizeB r).length ≤ sizeA + sizeB + 1 := by
  rw [labelDigits]
  by_cases h0 : valA sizeA sizeB r + valB sizeA sizeB r = 0
  · rw [if_pos h0]
    simp
  · rw [if_neg h0, List.length_reverse]
    have hsum : valA sizeA sizeB r + valB sizeA sizeB r < 2 ^ (sizeA + sizeB + 1) := by
      have hA := valA_lt sizeA sizeB r hr
      have hB := valB_lt sizeA sizeB r hr
      have h1 : 2 ^ sizeA ≤ 2 ^ (sizeA + sizeB) := Nat.pow_le_pow_right (by decide) (by omega)
      have h2 : 2 ^ sizeB ≤ 2 ^ (sizeA + sizeB) := Nat.pow_le_pow_right (by decide) (by omega)
      have h3 : 2 ^ (sizeA + sizeB + 1) = 2 * 2 ^ (sizeA + sizeB) := by
        rw [Nat.pow_succ]
        omega
      omega
    exact toBitsLSB_length_le hsum

theorem generateItemEnc_eq (sizeA sizeB : Nat) (r : Nat → Nat) :
    generateItemEnc sizeA sizeB r =
      some (binarizeSeq (vecInput sizeA sizeB r),
            armaReshapeCol (binarizeSeq (labelDigits sizeA sizeB r))
              (binarizeSeq (vecInput sizeA sizeB r)).length) := by
  rw [generateItemEnc, generateItem_eq]

theorem encLab_eq_pad (sizeA sizeB : Nat) (r : Nat → Nat) (hr : ∀ i, r i ≤ 1) :
    armaReshapeCol (binarizeSeq (labelDigits sizeA sizeB r))
        (binarizeSeq (vecInput sizeA sizeB r)).length =
      binarizeSeq (labelDigits sizeA sizeB r) ++
        List.replicate
          (3 * ((sizeA + sizeB + 1) - (labelDigits sizeA sizeB r).length)) 0 := by
  have hlab := binarizeSeq_length (labelDigits sizeA sizeB r)
  have hinp := binarizeSeq_length (vecInput sizeA sizeB r)
  rw [vecInput_length] at hinp
  have hle : (labelDigits sizeA sizeB r).length ≤ sizeA + sizeB + 1 :=
    labelDigits_length_le sizeA sizeB r hr
  rw [armaReshapeCol, List.take_of_length_le (by omega), hinp, hlab]
  have harith : 3 * (sizeA + sizeB + 1) - 3 * (labelDigits sizeA sizeB r).length
      = 3 * ((sizeA + sizeB + 1) - (labelDigits sizeA sizeB r).length) := by omega
  rw [harith]

end AddTask

/-! ### Supporting lemmas: round trip and batch plumbing -/

namespace AddTask

theorem generateItemEnc_roundtrip (sizeA sizeB : Nat) (r : Nat → Nat) (hr : ∀ i, r i ≤ 1)
    (ei el : List Nat) (h : generateItemEnc sizeA sizeB r = some (ei, el)) :
    msbValue (decodeOneHot3 el) =
      msbValue (operandsOf (decodeOneHot3 ei)).1 +
        msbValue (operandsOf (decodeOneHot3 ei)).2 := by
  rw [generateItemEnc_eq] at h
  have hei : ei = binarizeSeq (vecInput sizeA sizeB r) := by
    injection h with h1
    injection h1 with h2 h3
    exact h2.symm
  have hel : el = armaReshapeCol (binarizeSeq (labelDigits sizeA sizeB r))
      (binarizeSeq (vecInput sizeA sizeB r)).length := by
    injection h with h1
    injection h1 with h2 h3
    exact h3.symm
  subst hei
  subst hel
  rw [decodeOneHot3_binarize _ (vecInput_mem_le_two hr), operandsOf_vecInput _ _ _ hr]
  rw [encLab_eq_pad sizeA sizeB r hr]
  rw [decodeOneHot3_binarize_append _ _
    (fun v hv => Nat.le_trans (labelDigits_mem_le_one sizeA sizeB r v hv) (by decide))]
  rw [decodeOneHot3_replicate_zero, List.append_nil, msbValue_labelDigits]
  rw [valA_eq, valB_eq]

/-- A placeholder draw used as the `getD` default when indexing a batch. -/
def dummyDraw : Draw := ⟨0, 0, fun _ => 0⟩

theorem generateFieldAux_some (bitLen : Nat) (fx : Bool) (draws : List Draw) :
    ∀ inp lab : List (List Nat), generateFieldAux bitLen fx draws = some (inp, lab) →
      inp.length = draws.length ∧ lab.length = draws.length ∧
      ∀ i, i < draws.length →
        generateBatchItem bitLen fx (draws.getD i dummyDraw) =
          some (inp.getD i [], lab.getD i []) := by
  induction draws with
  | nil =>
    intro inp lab h
    rw [generateFieldAux] at h
    injection h with h1
    injection h1 with h2 h3
    subst h2
    subst h3
    refine ⟨rfl, rfl, ?_⟩
    intro i hi
    cases hi
  | cons d rest ih =>
    intro inp lab h
    rw [generateFieldAux] at h
    cases hitem : generateBatchItem bitLen fx d with
    | none =>
      rw [hitem] at h
      cases h
    | some p =>
      cases hrest : generateFieldAux bitLen fx rest with
      | none =>
        rw [hitem, hrest] at h
        rcases p with ⟨ei, el⟩
        cases h
      | some q =>
        rcases p with ⟨ei, el⟩
        rcases q with ⟨ri, rl⟩
        rw [hitem, hrest] at h
        injection h with h1
        injection h1 with h2 h3
        subst h2
        subst h3
        rcases ih ri rl hrest with ⟨ih1, ih2, ih3⟩
        refine ⟨by simp [ih1], by simp [ih2], ?_⟩
        intro i hi
        cases i with
        | zero => simpa using hitem
        | succ j =>
          have hj : j < rest.length := by
            simpa using hi
          simpa using ih3 j hj

theorem generateField_eq_generateFieldAux (bitLen : Nat) (fx : Bool) (draws : List Draw) :
    generateField bitLen fx draws = generateFieldAux bitLen fx draws := by
  rw [generateField]
  cases h : generateFieldAux bitLen fx draws with
  | none => rfl
  | some p =>
    rcases p with ⟨inp, lab⟩
    rcases generateFieldAux_some bitLen fx draws inp lab h with ⟨h1, h2, -⟩
    show (if inp.length ≠ lab.length then none else some (inp, lab)) = some (inp, lab)
    rw [if_neg (by omega)]

end AddTask

/-! ### Supporting lemmas: pointwise characterizations -/

theorem armaReshapeCol_length (l : List Nat) (n : Nat) :
    (armaReshapeCol l n).length = n := by
  simp [armaReshapeCol]
  omega

namespace AddTask

theorem vecInput_getElem? (sizeA sizeB : Nat) (r : Nat → Nat) (i : Nat) :
    (vecInput sizeA sizeB r)[i]? =
      if i = sizeA then some 2
      else if i < sizeA + sizeB + 1 then some (r i) else none := by
  rw [vecInput]
  by_cases hi : i = sizeA
  · subst hi
    rw [List.getElem?_set_self (show i < _ by rw [List.length_ofFn]; omega)]
    simp
  · rw [List.getElem?_set_ne (fun h => hi h.symm), List.getElem?_ofFn]
    by_cases hin : i < sizeA + sizeB + 1
    · simp [List.ofFnNthVal, hin, hi]
    · simp [List.ofFnNthVal, hin, hi]

theorem vecInput_getD_sep (sizeA sizeB : Nat) (r : Nat → Nat) :
    (vecInput sizeA sizeB r).getD sizeA 0 = 2 := by
  rw [List.getD_eq_getElem?_getD, vecInput_getElem?]
  simp

theorem vecInput_getD_le {sizeA sizeB : Nat} {r : Nat → Nat} (hr : ∀ i, r i ≤ 1)
    (k : Nat) (hk : k ≠ sizeA) : (vecInput sizeA sizeB r).getD k 0 ≤ 1 := by
  rw [List.getD_eq_getElem?_getD, vecInput_getElem?, if_neg hk]
  by_cases hin : k < sizeA + sizeB + 1
  · rw [if_pos hin]
    exact hr k
  · rw [if_neg hin]
    exact Nat.zero_le 1

theorem vecInput_count_two (sizeA sizeB : Nat) (r : Nat → Nat) (hr : ∀ i, r i ≤ 1) :
    (vecInput sizeA sizeB r).count 2 = 1 := by
  rw [vecInput_eq, List.count_append, List.count_cons_self]
  have hA : (bitsA sizeA r).count 2 = 0 := by
    rw [List.count_eq_zero]
    intro hmem
    have := bitsA_mem_le_one hr 2 hmem
    omega
  have hB : (bitsB sizeA sizeB r).count 2 = 0 := by
    rw [List.count_eq_zero]
    intro hmem
    have := bitsB_mem_le_one hr 2 hmem
    omega
  omega

theorem generateItemEnc_lengths (sizeA sizeB : Nat) (r : Nat → Nat)
    (ei el : List Nat) (h : generateItemEnc sizeA sizeB r = some (ei, el)) :
    el.length = ei.length ∧ ei.length = 3 * (sizeA + sizeB + 1) := by
  rw [generateItemEnc_eq] at h
  injection h with h1
  injection h1 with h2 h3
  subst h2
  subst h3
  constructor
  · rw [armaReshapeCol_length]
  · rw [binarizeSeq_length, vecInput_length]

end AddTask

theorem binarizeSeq_getD (s : List Nat) :
    ∀ j v : Nat, j < s.length → v < 3 →
      (binarizeSeq s).getD (3 * j + v) 0 = if v = s.getD j 0 then 1 else 0 := by
  induction s with
  | nil =>
    intro j v hj _
    cases hj
  | cons x t ih =>
    intro j v hj hv
    rw [binarizeSeq_cons]
    cases j with
    | zero =>
      have hlen : v < (oneHot3 x).length := by
        simp [oneHot3]
        omega
      rw [Nat.mul_zero, Nat.zero_add, List.getD_eq_getElem?_getD,
        List.getElem?_append_left hlen, ← List.getD_eq_getElem?_getD,
        List.getD_cons_zero]
      interval_cases v <;> simp [oneHot3, eq_comm]
    | succ k =>
      have hk : k < t.length := by
        simpa using hj
      have hidx : 3 * (k + 1) + v = (oneHot3 x).length + (3 * k + v) := by
        simp [oneHot3]
        omega
      rw [List.getD_eq_getElem?_getD, hidx,
        List.getElem?_append_right (by omega), Nat.add_sub_cancel_left,
        ← List.getD_eq_getElem?_getD, List.getD_cons_succ]
      exact ih k v hk hv

theorem length_flatten_replicate (n : Nat) (l : List Nat) :
    ((List.replicate n l).flatten).length = n * l.length := by
  induction n with
  | zero => simp
  | succ k ih =>
    rw [List.replicate_succ, List.flatten_cons, List.length_append, ih, Nat.succ_mul]
    omega

namespace CopyTask

theorem interleave_getElem? (u : List Nat) :
    ∀ v : List Nat, ∀ t : Nat, u.length = v.length →
      ((List.zipWith (fun a b => [a, b]) u v).flatten)[2 * t]? = u[t]? ∧
      ((List.zipWith (fun a b => [a, b]) u v).flatten)[2 * t + 1]? = v[t]? := by
  induction u with
  | nil =>
    intro v t hlen
    cases v with
    | nil => simp
    | cons b v => cases hlen
  | cons a u ih =>
    intro v t hlen
    cases v with
    | nil => cases hlen
    | cons b v =>
      have hlen2 : u.length = v.length := by
        simpa using hlen
      rw [List.zipWith_cons_cons, List.flatten_cons]
      cases t with
      | zero => simp
      | succ k =>
        have h1 : 2 * (k + 1) = ([a, b] : List Nat).length + 2 * k := by
          simp only [List.length_cons, List.length_nil]
          omega
        have h2 : 2 * (k + 1) + 1 = ([a, b] : List Nat).length + (2 * k + 1) := by
          simp only [List.length_cons, List.length_nil]
          omega
        constructor
        · rw [h1, List.getElem?_append_right (by omega), Nat.add_sub_cancel_left,
            List.getElem?_cons_succ]
          exact (ih v k hlen2).1
        · rw [h2, List.getElem?_append_right (by omega), Nat.add_sub_cancel_left,
            List.getElem?_cons_succ]
          exact (ih v k hlen2).2

end CopyTask

/-! ### Claim C8: AddTask construction validation -/

/-- C8: `AddTask` construction succeeds for every `bitLen ≥ 1` and fails
(`std::invalid_argument`) for `bitLen ≤ 0`, i.e. `bitLen = 0` for the
unsigned parameter; the check runs in the constructor, before any
generation work. -/
theorem claim_C8_add_ctor :
    (∀ b : Nat, 1 ≤ b → (AddTask.mk b).isSome = true) ∧ AddTask.mk 0 = none := by
  constructor
  · intro b hb
    rw [AddTask.mk, if_neg (by omega)]
    rfl
  · rfl

/-- Witness for C8 at `bitLen = 1`. -/
theorem claim_C8_witness : (AddTask.mk 1).isSome = true :=
  claim_C8_add_ctor.1 1 (by decide)

/-! ### Claim C9: variable-length generation needs `bitLen ≥ 2` -/

/-- C9: construction accepts `bitLen = 1`, but the variable-length size
draw of `AddTask::Generate` is `RandInt(2, bitLen + 1)`, whose admissible
range is empty for `bitLen = 1` (no valid draw exists, so `drawOk 1 false`
is unsatisfiable), while for every `bitLen ≥ 2` valid draws exist.
`RandInt` is modelled from the spec (`randIntCanReturn`). -/
theorem claim_C9_randint_range :
    (AddTask.mk 1).isSome = true ∧
    (¬ ∃ sz : Nat, randIntCanReturn 2 (1 + 1) sz) ∧
    (∀ d : AddTask.Draw, AddTask.drawOk 1 false d → False) ∧
    (∀ bl : Nat, 2 ≤ bl → ∃ sz : Nat, randIntCanReturn 2 (bl + 1) sz) ∧
    (∀ bl : Nat, 2 ≤ bl → ∃ d : AddTask.Draw, AddTask.drawOk bl false d) := by
  refine ⟨rfl, ?_, ?_, ?_, ?_⟩
  · rintro ⟨sz, h1, h2⟩
    omega
  · intro d hok
    rcases hok.1 rfl with ⟨⟨h1, h2⟩, -⟩
    omega
  · intro bl hbl
    exact ⟨2, le_refl 2, by omega⟩
  · intro bl hbl
    refine ⟨⟨2, 2, fun _ => 0⟩, ?_, fun i => Nat.zero_le 1⟩
    intro _
    exact ⟨⟨le_refl 2, Nat.lt_succ_of_le hbl⟩, ⟨le_refl 2, Nat.lt_succ_of_le hbl⟩⟩

/-- Witness for C9: at `bitLen = 2` the size draw has an admissible value. -/
theorem claim_C9_witness : ∃ sz : Nat, randIntCanReturn 2 (2 + 1) sz :=
  claim_C9_randint_range.2.2.2.1 2 (by decide)

/-! ### Claim C10: CopyTask does not validate `nRepeats` -/

/-- C10: `CopyTask` construction validates only `maxLength > 1` (any
`nRepeats`, including 0, is accepted), `CopyTask::Generate` hits an
out-of-bounds row range (`rows(size, totSize-1)` with `totSize = size`)
whenever `nRepeats = 0`, and for every `nRepeats ≥ 1` (and any positive
drawn `size`) all row-range accesses are in bounds and the item is
produced. -/
theorem claim_C10_copy_nrepeats :
    (∀ m n : Nat, (CopyTask.mk m n).isSome = true ↔ 2 ≤ m) ∧
    (∀ (size : Nat) (r : Nat → Nat), 1 ≤ size →
      CopyTask.generateItem 0 size r = none) ∧
    (∀ (nRepeats size : Nat) (r : Nat → Nat), 1 ≤ nRepeats → 1 ≤ size →
      (CopyTask.generateItem nRepeats size r).isSome = true) := by
  refine ⟨?_, ?_, ?_⟩
  · intro m n
    rw [CopyTask.mk]
    by_cases hm : m > 1
    · rw [if_pos hm]
      simp
      omega
    · rw [if_neg hm]
      simp
      omega
  · intro size r hsize
    rw [CopyTask.generateItem]
    rw [if_neg]
    rintro ⟨-, h2⟩
    simp at h2
  · intro nRepeats size r hn hsize
    have hcond : 1 ≤ size ∧ size + 1 ≤
        (List.ofFn (fun i : Fin size => r i)).length +
          ((List.replicate nRepeats (List.ofFn (fun i : Fin size => r i))).flatten).length := by
      constructor
      · exact hsize
      · rw [length_flatten_replicate, List.length_ofFn]
        have hmul : size ≤ nRepeats * size := Nat.le_mul_of_pos_left size (by omega)
        omega
    rw [CopyTask.generateItem, if_pos hcond]
    rfl

/-- Witness for C10: `nRepeats = 0` with a drawn `size = 2` aborts. -/
theorem claim_C10_witness : CopyTask.generateItem 0 2 (fun _ => 0) = none :=
  claim_C10_copy_nrepeats.2.1 2 (fun _ => 0) (by decide)

/-! ### Claim C7: the Add label encodes the sum with no leading zero -/

/-- C7: in `AddTask::Generate`, when both decoded operands are zero the
pre-encoding label sequence is exactly `[0]` (never empty); for every
nonzero sum the label is its binary representation most-significant digit
first, with no leading zero (its first digit is `1`). -/
theorem claim_C7_label_digits (sizeA sizeB : Nat) (r : Nat → Nat)
    (inp lab : List Nat)
    (h : AddTask.generateItem sizeA sizeB r = some (inp, lab)) :
    (AddTask.valA sizeA sizeB r = 0 ∧ AddTask.valB sizeA sizeB r = 0 → lab = [0]) ∧
    (AddTask.valA sizeA sizeB r + AddTask.valB sizeA sizeB r ≠ 0 →
      msbValue lab = AddTask.valA sizeA sizeB r + AddTask.valB sizeA sizeB r ∧
      lab.head? = some 1 ∧ ∀ x ∈ lab, x ≤ 1) := by
  rw [AddTask.generateItem_eq] at h
  have hlab : lab = AddTask.labelDigits sizeA sizeB r := by
    injection h with h1
    injection h1 with h2 h3
    exact h3.symm
  subst hlab
  constructor
  · rintro ⟨hA, hB⟩
    rw [AddTask.labelDigits, if_pos (by omega)]
    rfl
  · intro h0
    exact ⟨by rw [AddTask.msbValue_labelDigits],
      AddTask.labelDigits_head_of_ne_zero sizeA sizeB r h0,
      AddTask.labelDigits_mem_le_one sizeA sizeB r⟩

/-- Witness for C7: `sizeA = sizeB = 2` with an all-zero bit stream. -/
theorem claim_C7_witness :
    AddTask.generateItem 2 2 (fun _ => 0) = some ([0, 0, 2, 0, 0], [0]) ∧
    ([0] : List Nat) = [0] := by
  refine ⟨by decide, ?_⟩
  exact (claim_C7_label_digits 2 2 (fun _ => 0) [0, 0, 2, 0, 0] [0] (by decide)).1
    (by decide)

/-! ### Claim C5: shape of the pre-encoding Add input sequence -/

/-- C5: every pre-encoding Add input sequence has length
`sizeA + sizeB + 1`, where both sizes are `bitLen` when `fixedLength` and
are drawn from `[2, bitLen]` otherwise; the separator `2` occurs exactly
once, namely at position `sizeA`, and every other position holds a bit in
`{0, 1}`. -/
theorem claim_C5_separator (bitLen : Nat) (fixedLength : Bool) (d : AddTask.Draw)
    (hok : AddTask.drawOk bitLen fixedLength d) (sA sB : Nat)
    (hsA : sA = AddTask.effSize bitLen fixedLength d.sizeA)
    (hsB : sB = AddTask.effSize bitLen fixedLength d.sizeB)
    (inp lab : List Nat)
    (h : AddTask.generateItem sA sB d.bits = some (inp, lab)) :
    inp.length = sA + sB + 1 ∧
    inp.getD sA 0 = 2 ∧
    inp.count 2 = 1 ∧
    (∀ k, k ≠ sA → inp.getD k 0 ≤ 1) ∧
    (fixedLength = true → sA = bitLen ∧ sB = bitLen) ∧
    (fixedLength = false → (2 ≤ sA ∧ sA ≤ bitLen) ∧ (2 ≤ sB ∧ sB ≤ bitLen)) := by
  rw [AddTask.generateItem_eq] at h
  have hinp : inp = AddTask.vecInput sA sB d.bits := by
    injection h with h1
    injection h1 with h2 h3
    exact h2.symm
  subst hinp
  refine ⟨AddTask.vecInput_length sA sB d.bits,
    AddTask.vecInput_getD_sep sA sB d.bits,
    AddTask.vecInput_count_two sA sB d.bits hok.2,
    fun k hk => AddTask.vecInput_getD_le hok.2 k hk, ?_, ?_⟩
  · intro hfx
    subst hfx
    rw [hsA, hsB]
    exact ⟨rfl, rfl⟩
  · intro hfx
    subst hfx
    rcases hok.1 rfl with ⟨⟨hA1, hA2⟩, ⟨hB1, hB2⟩⟩
    rw [hsA, hsB]
    rw [AddTask.effSize, if_neg (by decide)]
    rw [AddTask.effSize, if_neg (by decide)]
    exact ⟨⟨hA1, by omega⟩, ⟨hB1, by omega⟩⟩

/-- Witness for C5: `bitLen = 2`, `fixedLength = true`, all-zero bits. -/
theorem claim_C5_witness :
    ([0, 0, 2, 0, 0] : List Nat).length = 2 + 2 + 1 ∧
    ([0, 0, 2, 0, 0] : List Nat).getD 2 0 = 2 ∧
    ([0, 0, 2, 0, 0] : List Nat).count 2 = 1 := by
  have hok : AddTask.drawOk 2 true ⟨2, 2, fun _ => 0⟩ :=
    ⟨fun hcontra => absurd hcontra (by decide), fun i => Nat.zero_le 1⟩
  have hmain := claim_C5_separator 2 true ⟨2, 2, fun _ => 0⟩ hok 2 2 (by decide) (by decide)
    [0, 0, 2, 0, 0] [0] (by decide)
  exact ⟨hmain.1, hmain.2.1, hmain.2.2.1⟩

/-! ### Claim C2: the label reshape after encoding -/

/-- C2 as stated is false: the reshape
`labels.at(i).reshape(input.at(i).n_elem, 1)` sets the label item's element
count to the INPUT item's element count, not to the label's own one-hot
element count.  Concretely, with `bitLen = 2`, fixed length and an all-zero
bit stream, the binary-sum digit sequence is `[0]` (length 1, one-hot
element count 3) but the returned label column has 15 elements. -/
theorem claim_C2_counterexample :
    (AddTask.generateItem 2 2 (fun _ => 0)).map Prod.snd = some [0] ∧
    (AddTask.generateBatchItem 2 true ⟨2, 2, fun _ => 0⟩).map
      (fun p => p.2.length) = some 15 ∧
    (15 : Nat) ≠ 3 * 1 := by
  decide

/-- C2 (amended): after the field-form `AddTask::Generate` returns, every
label item is a single column whose element count equals the element count
of the corresponding encoded input item, namely `3 * (sizeA + sizeB + 1)`
(the label's own one-hot encoding is zero-padded at the end up to that
count by the reshape). -/
theorem claim_C2_label_reshaped (bitLen : Nat) (fixedLength : Bool)
    (draws : List AddTask.Draw) (inp lab : List (List Nat))
    (h : AddTask.generateField bitLen fixedLength draws = some (inp, lab))
    (i : Nat) (hi : i < draws.length) :
    (lab.getD i []).length = (inp.getD i []).length ∧
    (inp.getD i []).length =
      3 * (AddTask.effSize bitLen fixedLength (draws.getD i AddTask.dummyDraw).sizeA
        + AddTask.effSize bitLen fixedLength (draws.getD i AddTask.dummyDraw).sizeB
        + 1) := by
  rw [AddTask.generateField_eq_generateFieldAux] at h
  rcases AddTask.generateFieldAux_some bitLen fixedLength draws inp lab h with ⟨-, -, h3⟩
  have hitem := h3 i hi
  rw [AddTask.generateBatchItem] at hitem
  rcases AddTask.generateItemEnc_lengths _ _ _ _ _ hitem with ⟨h4, h5⟩
  exact ⟨h4, h5⟩

/-- Witness for C2 (amended): one fixed-length item with `bitLen = 2`. -/
theorem claim_C2_witness :
    (([[1, 0, 0, 0, 0, 0, 0, 0, 0, 0, 0, 0, 0, 0, 0]] :
        List (List Nat)).getD 0 []).length =
      (([[1, 0, 0, 1, 0, 0, 0, 0, 1, 1, 0, 0, 1, 0, 0]] :
        List (List Nat)).getD 0 []).length :=
  (claim_C2_label_reshaped 2 true [⟨2, 2, fun _ => 0⟩]
    [[1, 0, 0, 1, 0, 0, 0, 0, 1, 1, 0, 0, 1, 0, 0]]
    [[1, 0, 0, 0, 0, 0, 0, 0, 0, 0, 0, 0, 0, 0, 0]]
    (by decide) 0 (by decide)).1

/-! ### Claim C6: Binarize is per-position one-hot encoding -/

/-- C6: for every batch whose sequences hold values in `{0, 1, 2}`,
`AddTask::Binarize` keeps the item count, turns item `i` into a single
column of `3 * len` elements, and entries `3*j .. 3*j+2` form the indicator
of symbol `input_i[j]`. -/
theorem claim_C6_binarize (batch : List (List Nat))
    (hb : ∀ s ∈ batch, ∀ v ∈ s, v ≤ 2) :
    (Binarize batch).length = batch.length ∧
    ∀ i, i < batch.length →
      ((Binarize batch).getD i []).length = 3 * (batch.getD i []).length ∧
      ∀ j v, j < (batch.getD i []).length → v < 3 →
        ((Binarize batch).getD i []).getD (3 * j + v) 0 =
          if v = (batch.getD i []).getD j 0 then 1 else 0 := by
  constructor
  · rw [Binarize, List.length_map]
  · intro i hi
    have hmap : (Binarize batch).getD i [] = binarizeSeq (batch.getD i []) := by
      rw [Binarize, List.getD_eq_getElem?_getD, List.getElem?_map,
        List.getElem?_eq_getElem hi]
      rw [List.getD_eq_getElem?_getD, List.getElem?_eq_getElem hi]
      rfl
    rw [hmap]
    exact ⟨binarizeSeq_length _, binarizeSeq_getD _⟩

/-- Witness for C6 on the batch `[[0, 1, 2]]`. -/
theorem claim_C6_witness :
    (Binarize [[0, 1, 2]]).length = 1 ∧
    ((Binarize [[0, 1, 2]]).getD 0 []).length = 3 * 3 :=
  ⟨(claim_C6_binarize [[0, 1, 2]] (by decide)).1,
   ((claim_C6_binarize [[0, 1, 2]] (by decide)).2 0 (by decide)).1⟩

/-! ### Claim C1: label decodes to the sum of the decoded operands -/

/-- C1: for every item of a batch generated by the field-form
`AddTask::Generate` (any batch size, any `fixedLength`, any admissible
random draws), decoding the one-hot label sequence back to an integer
(most-significant digit first) equals the sum of the two operands decoded
from the one-hot input sequence, where operand A is the digits before the
separator and operand B the digits after it, each decoded big-endian.
(All-zero groups of three — the zero padding appended to the label by the
final reshape — encode no symbol and contribute no digit.) -/
theorem claim_C1_roundtrip_sum (bitLen : Nat) (fixedLength : Bool)
    (draws : List AddTask.Draw)
    (hd : ∀ d ∈ draws, AddTask.drawOk bitLen fixedLength d)
    (inp lab : List (List Nat))
    (h : AddTask.generateField bitLen fixedLength draws = some (inp, lab))
    (i : Nat) (hi : i < draws.length) :
    msbValue (decodeOneHot3 (lab.getD i [])) =
      msbValue (operandsOf (decodeOneHot3 (inp.getD i []))).1 +
        msbValue (operandsOf (decodeOneHot3 (inp.getD i []))).2 := by
  rw [AddTask.generateField_eq_generateFieldAux] at h
  rcases AddTask.generateFieldAux_some bitLen fixedLength draws inp lab h with ⟨-, -, h3⟩
  have hitem := h3 i hi
  rw [AddTask.generateBatchItem] at hitem
  have hmem : draws.getD i AddTask.dummyDraw ∈ draws := by
    rw [List.getD_eq_getElem?_getD, List.getElem?_eq_getElem hi, Option.getD_some]
    exact List.getElem_mem hi
  have hok := hd _ hmem
  exact AddTask.generateItemEnc_roundtrip _ _ _ hok.2 _ _ hitem

/-- Witness for C1: a fixed-length batch of one item, `bitLen = 2`,
all-zero bits (both operands decode to 0, the label decodes to 0). -/
theorem claim_C1_witness :
    AddTask.generateField 2 true [⟨2, 2, fun _ => 0⟩] =
      some ([[1, 0, 0, 1, 0, 0, 0, 0, 1, 1, 0, 0, 1, 0, 0]],
            [[1, 0, 0, 0, 0, 0, 0, 0, 0, 0, 0, 0, 0, 0, 0]]) ∧
    msbValue (decodeOneHot3
        (([[1, 0, 0, 0, 0, 0, 0, 0, 0, 0, 0, 0, 0, 0, 0]] :
          List (List Nat)).getD 0 [])) =
      msbValue (operandsOf (decodeOneHot3
          (([[1, 0, 0, 1, 0, 0, 0, 0, 1, 1, 0, 0, 1, 0, 0]] :
            List (List Nat)).getD 0 []))).1 +
        msbValue (operandsOf (decodeOneHot3
            (([[1, 0, 0, 1, 0, 0, 0, 0, 1, 1, 0, 0, 1, 0, 0]] :
              List (List Nat)).getD 0 []))).2 := by
  have hd : ∀ d ∈ [(⟨2, 2, fun _ => 0⟩ : AddTask.Draw)], AddTask.drawOk 2 true d := by
    intro d hdm
    rw [List.mem_singleton] at hdm
    subst hdm
    exact ⟨fun hcontra => absurd hcontra (by decide), fun i => Nat.zero_le 1⟩
  refine ⟨by decide, ?_⟩
  exact claim_C1_roundtrip_sum 2 true [⟨2, 2, fun _ => 0⟩] hd
    [[1, 0, 0, 1, 0, 0, 0, 0, 1, 1, 0, 0, 1, 0, 0]]
    [[1, 0, 0, 0, 0, 0, 0, 0, 0, 0, 0, 0, 0, 0, 0]]
    (by decide) 0 (by decide)

/-! ### Claim C4: the fixed-length dense-matrix wrapper -/

/-- C4: the fixed-length `AddTask::Generate(input, labels, batchSize)`
invokes the field-form generator with `fixedLength = true` (the matrices it
returns are exactly the field items, one column per batch item), every
item's pre-encoding input sequence has length `2*bitLen + 1`, and both
dense matrices have `batchSize` columns of the common encoded width
`3 * (2*bitLen + 1)`. -/
theorem claim_C4_fixed_matrix (bitLen : Nat) (draws : List AddTask.Draw)
    (inp lab : List (List Nat))
    (h : AddTask.generateMatrix bitLen draws = some (inp, lab)) :
    AddTask.generateField bitLen true draws = some (inp, lab) ∧
    inp.length = draws.length ∧ lab.length = draws.length ∧
    (∀ c ∈ inp, c.length = 3 * (2 * bitLen + 1)) ∧
    (∀ c ∈ lab, c.length = 3 * (2 * bitLen + 1)) ∧
    (∀ d ∈ draws, (AddTask.generateItem bitLen bitLen d.bits).map
        (fun p => p.1.length) = some (2 * bitLen + 1)) := by
  rw [AddTask.generateMatrix] at h
  cases hf : AddTask.generateField bitLen true draws with
  | none =>
    rw [hf] at h
    cases h
  | some p =>
    rcases p with ⟨fi, fl⟩
    rw [hf] at h
    have hfield : fi = inp ∧ fl = lab := by
      cases fi with
      | nil => cases h
      | cons i0 it =>
        cases fl with
        | nil => cases h
        | cons l0 lt =>
          revert h
          show (if (((i0 :: it).all fun c => decide (c.length = i0.length)) &&
                ((l0 :: lt).all fun c => decide (c.length = l0.length))) = true
              then some (i0 :: it, l0 :: lt)
              else (none : Option (List (List Nat) × List (List Nat)))) =
                some (inp, lab) →
              i0 :: it = inp ∧ l0 :: lt = lab
          intro h
          split at h
          · injection h with h1
            injection h1 with h2 h3
            exact ⟨h2, h3⟩
          · cases h
    rcases hfield with ⟨hfi, hfl⟩
    subst hfi
    subst hfl
    have hfx := hf
    rw [AddTask.generateField_eq_generateFieldAux] at hfx
    rcases AddTask.generateFieldAux_some bitLen true draws fi fl hfx with ⟨h1, h2, h3⟩
    have hitemLen : ∀ i, i < draws.length →
        (fi.getD i []).length = 3 * (2 * bitLen + 1) ∧
        (fl.getD i []).length = 3 * (2 * bitLen + 1) := by
      intro i hi
      have hitem := h3 i hi
      rw [AddTask.generateBatchItem] at hitem
      have heffA : AddTask.effSize bitLen true
          (draws.getD i AddTask.dummyDraw).sizeA = bitLen := rfl
      have heffB : AddTask.effSize bitLen true
          (draws.getD i AddTask.dummyDraw).sizeB = bitLen := rfl
      rw [heffA, heffB] at hitem
      rcases AddTask.generateItemEnc_lengths _ _ _ _ _ hitem with ⟨h4, h5⟩
      have harith : bitLen + bitLen + 1 = 2 * bitLen + 1 := by omega
      rw [harith] at h5
      exact ⟨h5, by rw [h4, h5]⟩
    refine ⟨rfl, h1, h2, ?_, ?_, ?_⟩
    · intro c hc
      rcases List.mem_iff_getElem.mp hc with ⟨i, hlen, hci⟩
      have hgd : fi.getD i [] = c := by
        rw [List.getD_eq_getElem?_getD, List.getElem?_eq_getElem hlen,
          Option.getD_some, hci]
      rw [← hgd]
      exact (hitemLen i (by omega)).1
    · intro c hc
      rcases List.mem_iff_getElem.mp hc with ⟨i, hlen, hci⟩
      have hgd : fl.getD i [] = c := by
        rw [List.getD_eq_getElem?_getD, List.getElem?_eq_getElem hlen,
          Option.getD_some, hci]
      rw [← hgd]
      exact (hitemLen i (by omega)).2
    · intro d _
      rw [AddTask.generateItem_eq]
      show some ((AddTask.vecInput bitLen bitLen d.bits).length) = some (2 * bitLen + 1)
      rw [AddTask.vecInput_length]
      have harith : bitLen + bitLen + 1 = 2 * bitLen + 1 := by omega
      rw [harith]

/-- Witness for C4: a one-item batch with `bitLen = 2`. -/
theorem claim_C4_witness :
    AddTask.generateField 2 true [⟨2, 2, fun _ => 0⟩] =
      some ([[1, 0, 0, 1, 0, 0, 0, 0, 1, 1, 0, 0, 1, 0, 0]],
            [[1, 0, 0, 0, 0, 0, 0, 0, 0, 0, 0, 0, 0, 0, 0]]) ∧
    ([[1, 0, 0, 1, 0, 0, 0, 0, 1, 1, 0, 0, 1, 0, 0]] :
      List (List Nat)).length = 1 :=
  ⟨(claim_C4_fixed_matrix 2 [⟨2, 2, fun _ => 0⟩]
      [[1, 0, 0, 1, 0, 0, 0, 0, 1, 1, 0, 0, 1, 0, 0]]
      [[1, 0, 0, 0, 0, 0, 0, 0, 0, 0, 0, 0, 0, 0, 0]] (by decide)).1,
   (claim_C4_fixed_matrix 2 [⟨2, 2, fun _ => 0⟩]
      [[1, 0, 0, 1, 0, 0, 0, 0, 1, 1, 0, 0, 1, 0, 0]]
      [[1, 0, 0, 0, 0, 0, 0, 0, 0, 0, 0, 0, 0, 0, 0]] (by decide)).2.1⟩

/-! ### Claim C3: shape of a generated Copy item -/

/-- C3: for every Copy item generated with drawn length
`size ∈ [2, maxLength]` and base bit sequence `b` (the first `size` values
of the stream), the label is a single column of length
`size + size*nRepeats` whose first `size` entries are zero and whose
remaining entries are `nRepeats` consecutive copies of `b`; the input's
delimiter (second) channel is zero at the first `size` time positions and
one at every later position, while the value (first) channel holds `b` at
the first `size` positions and zero after them. -/
theorem claim_C3_copy_item (maxLength nRepeats size : Nat) (r : Nat → Nat)
    (hsz : 2 ≤ size) (hmax : size ≤ maxLength)
    (inp lab : List Nat)
    (h : CopyTask.generateItem nRepeats size r = some (inp, lab)) :
    lab.length = size + size * nRepeats ∧
    (∀ k, k < size → lab.getD k 0 = 0) ∧
    lab.drop size = (List.replicate nRepeats
      (List.ofFn (fun i : Fin size => r i))).flatten ∧
    inp.length = 2 * (size + size * nRepeats) ∧
    (∀ t, t < size + size * nRepeats →
      inp.getD (2 * t + 1) 0 = if t < size then 0 else 1) ∧
    (∀ t, t < size + size * nRepeats →
      inp.getD (2 * t) 0 =
        if t < size then (List.ofFn (fun i : Fin size => r i)).getD t 0 else 0) := by
  simp only [CopyTask.generateItem] at h
  split at h
  case isFalse => cases h
  case isTrue hguard =>
    have hof : (List.ofFn (fun i : Fin size => r i)).length = size :=
      List.length_ofFn _
    have hfl : ((List.replicate nRepeats
        (List.ofFn (fun i : Fin size => r i))).flatten).length = nRepeats * size := by
      rw [length_flatten_replicate, List.length_ofFn]
    injection h with h1
    injection h1 with hinp hlab
    subst hinp
    subst hlab
    rw [hof, hfl] at hguard ⊢
    have hsub : size + nRepeats * size - size = nRepeats * size := by omega
    rw [hsub]
    have hcomm : nRepeats * size = size * nRepeats := Nat.mul_comm nRepeats size
    have hcol0len : ((List.ofFn (fun i : Fin size => r i)) ++
        List.replicate (nRepeats * size) 0).length = size + nRepeats * size := by
      rw [List.length_append, hof, List.length_replicate]
    have hcol1len : ((List.replicate size 0 : List Nat) ++
        List.replicate (nRepeats * size) 1).length = size + nRepeats * size := by
      rw [List.length_append, List.length_replicate, List.length_replicate]
    refine ⟨?_, ?_, ?_, ?_, ?_, ?_⟩
    · rw [List.length_append, List.length_replicate, hfl, hcomm]
    · intro k hk
      rw [List.getD_eq_getElem?_getD,
        List.getElem?_append_left (by rw [List.length_replicate]; omega),
        List.getElem?_replicate_of_lt hk, Option.getD_some]
    · exact List.drop_left' (List.length_replicate size 0)
    · have hz : ∀ u v : List Nat, u.length = v.length →
          ((List.zipWith (fun a b => [a, b]) u v).flatten).length = 2 * u.length := by
        intro u
        induction u with
        | nil =>
          intro v _
          simp
        | cons a u ih =>
          intro v hl
          cases v with
          | nil => cases hl
          | cons b v =>
            rw [List.zipWith_cons_cons, List.flatten_cons, List.length_append,
              ih v (by simpa using hl)]
            simp only [List.length_cons, List.length_nil]
            omega
      rw [hz _ _ (by rw [hcol0len, hcol1len]), hcol0len, hcomm]
    · intro t ht
      rw [← hcomm] at ht
      have hint := (CopyTask.interleave_getElem?
        ((List.ofFn (fun i : Fin size => r i)) ++ List.replicate (nRepeats * size) 0)
        ((List.replicate size 0 : List Nat) ++ List.replicate (nRepeats * size) 1)
        t (by rw [hcol0len, hcol1len])).2
      rw [List.getD_eq_getElem?_getD, hint]
      by_cases hts : t < size
      · rw [List.getElem?_append_left (by rw [List.length_replicate]; omega),
          List.getElem?_replicate_of_lt hts, Option.getD_some, if_pos hts]
      · rw [List.getElem?_append_right (by rw [List.length_replicate]; omega),
          List.length_replicate,
          List.getElem?_replicate_of_lt (by omega), Option.getD_some, if_neg hts]
    · intro t ht
      rw [← hcomm] at ht
      have hint := (CopyTask.interleave_getElem?
        ((List.ofFn (fun i : Fin size => r i)) ++ List.replicate (nRepeats * size) 0)
        ((List.replicate size 0 : List Nat) ++ List.replicate (nRepeats * size) 1)
        t (by rw [hcol0len, hcol1len])).1
      rw [List.getD_eq_getElem?_getD, hint]
      by_cases hts : t < size
      · rw [List.getElem?_append_left (by rw [hof]; omega), if_pos hts,
          List.getD_eq_getElem?_getD]
      · rw [List.getElem?_append_right (by rw [hof]; omega), hof,
          List.getElem?_replicate_of_lt (by omega), Option.getD_some, if_neg hts]

/-- Witness for C3: `maxLength = 2`, `nRepeats = 1`, drawn `size = 2`,
all-zero bits. -/
theorem claim_C3_witness :
    CopyTask.generateItem 1 2 (fun _ => 0) =
      some ([0, 0, 0, 0, 0, 1, 0, 1], [0, 0, 0, 0]) ∧
    ([0, 0, 0, 0] : List Nat).length = 2 + 2 * 1 := by
  refine ⟨by decide, ?_⟩
  exact (claim_C3_copy_item 2 1 2 (fun _ => 0) (by decide) (by decide)
    [0, 0, 0, 0, 0, 1, 0, 1] [0, 0, 0, 0] (by decide)).1

end MlpackTasks
